import Mathlib

/-!
# imagor: composition of the engine from flag values (`cmd/imagor/main.go`)

`main` declares a flag set, lets `ff.Parse` fill it from the command line and
the environment, builds the loader list and the storage list and hands them,
together with the remaining engine options, to `imagor.New`.  The development
below embeds `main` as a function from the flag values (and from the outcome of
the three fallible library constructors it calls) to the value it passes to
`server.New`, and states the flag documentation as theorems about it.

The engine that `main` constructs is not among the sources.  Its request
coalescing is modelled from the spec (namespace `Coalescer`) as a step function
over the calls that share a fingerprint, and the spec's coalescing guarantee is
stated about the runs of that model.
-/

namespace Imagor

/-! ## Data model -/

/-- A `time.Duration`: a signed count of nanoseconds. -/
abbrev Duration := Int

/-- `time.Second`. -/
def Second : Duration := 1000000000

/-- `time.Minute`. -/
def Minute : Duration := 60 * Second

/-- The flag variables of `main` (lines 30-102), one field per `fs.X` call. -/
structure Flags where
  debug : Bool
  port : Int
  imagorSecret : String
  imagorUnsafe : Bool
  imagorRequestTimeout : Duration
  imagorSaveTimeout : Duration
  serverAddress : String
  serverPathPrefix : String
  serverCORS : Bool
  vipsDisableBlur : Bool
  vipsDisableFilters : String
  httpLoaderForwardHeaders : String
  httpLoaderForwardUserAgent : Bool
  httpLoaderForwardAllHeaders : Bool
  httpLoaderAllowedSources : String
  httpLoaderMaxAllowedSize : Int
  httpLoaderInsecureSkipVerifyTransport : Bool
  awsRegion : String
  awsAccessKeyId : String
  awsSecretAccessKey : String
  s3LoaderBucket : String
  s3LoaderBaseDir : String
  s3LoaderPathPrefix : String
  s3StorageBucket : String
  s3StorageBaseDir : String
  s3StoragePathPrefix : String
  fileLoaderBaseDir : String
  fileLoaderPathPrefix : String
  fileStorageBaseDir : String
  fileStoragePathPrefix : String
  deriving DecidableEq, Repr

/-- The default value each flag is declared with (second argument of each
`fs.Bool` / `fs.Int` / `fs.String` / `fs.Duration` call). -/
def defaultFlags : Flags where
  debug := false
  port := 9000
  imagorSecret := ""
  imagorUnsafe := false
  imagorRequestTimeout := Second * 30
  imagorSaveTimeout := Minute
  serverAddress := ""
  serverPathPrefix := ""
  serverCORS := false
  vipsDisableBlur := false
  vipsDisableFilters := ""
  httpLoaderForwardHeaders := ""
  httpLoaderForwardUserAgent := false
  httpLoaderForwardAllHeaders := false
  httpLoaderAllowedSources := ""
  httpLoaderMaxAllowedSize := 0
  httpLoaderInsecureSkipVerifyTransport := false
  awsRegion := ""
  awsAccessKeyId := ""
  awsSecretAccessKey := ""
  s3LoaderBucket := ""
  s3LoaderBaseDir := "/"
  s3LoaderPathPrefix := "/"
  s3StorageBucket := ""
  s3StorageBaseDir := ""
  s3StoragePathPrefix := ""
  fileLoaderBaseDir := ""
  fileLoaderPathPrefix := ""
  fileStorageBaseDir := ""
  fileStoragePathPrefix := ""

/-- One value supplied for one flag, on the command line or through the
environment, already converted to the flag's type. -/
inductive Supplied where
  | debug (v : Bool)
  | port (v : Int)
  | imagorSecret (v : String)
  | imagorUnsafe (v : Bool)
  | imagorRequestTimeout (v : Duration)
  | imagorSaveTimeout (v : Duration)
  | serverAddress (v : String)
  | serverPathPrefix (v : String)
  | serverCORS (v : Bool)
  | vipsDisableBlur (v : Bool)
  | vipsDisableFilters (v : String)
  | httpLoaderForwardHeaders (v : String)
  | httpLoaderForwardUserAgent (v : Bool)
  | httpLoaderForwardAllHeaders (v : Bool)
  | httpLoaderAllowedSources (v : String)
  | httpLoaderMaxAllowedSize (v : Int)
  | httpLoaderInsecureSkipVerifyTransport (v : Bool)
  | awsRegion (v : String)
  | awsAccessKeyId (v : String)
  | awsSecretAccessKey (v : String)
  | s3LoaderBucket (v : String)
  | s3LoaderBaseDir (v : String)
  | s3LoaderPathPrefix (v : String)
  | s3StorageBucket (v : String)
  | s3StorageBaseDir (v : String)
  | s3StoragePathPrefix (v : String)
  | fileLoaderBaseDir (v : String)
  | fileLoaderPathPrefix (v : String)
  | fileStorageBaseDir (v : String)
  | fileStoragePathPrefix (v : String)
  deriving DecidableEq, Repr

/-- Storing one supplied value in the variable of its flag; every other
variable keeps its value. -/
def Flags.set (fl : Flags) : Supplied → Flags
  | .debug v => { fl with debug := v }
  | .port v => { fl with port := v }
  | .imagorSecret v => { fl with imagorSecret := v }
  | .imagorUnsafe v => { fl with imagorUnsafe := v }
  | .imagorRequestTimeout v => { fl with imagorRequestTimeout := v }
  | .imagorSaveTimeout v => { fl with imagorSaveTimeout := v }
  | .serverAddress v => { fl with serverAddress := v }
  | .serverPathPrefix v => { fl with serverPathPrefix := v }
  | .serverCORS v => { fl with serverCORS := v }
  | .vipsDisableBlur v => { fl with vipsDisableBlur := v }
  | .vipsDisableFilters v => { fl with vipsDisableFilters := v }
  | .httpLoaderForwardHeaders v => { fl with httpLoaderForwardHeaders := v }
  | .httpLoaderForwardUserAgent v => { fl with httpLoaderForwardUserAgent := v }
  | .httpLoaderForwardAllHeaders v => { fl with httpLoaderForwardAllHeaders := v }
  | .httpLoaderAllowedSources v => { fl with httpLoaderAllowedSources := v }
  | .httpLoaderMaxAllowedSize v => { fl with httpLoaderMaxAllowedSize := v }
  | .httpLoaderInsecureSkipVerifyTransport v =>
      { fl with httpLoaderInsecureSkipVerifyTransport := v }
  | .awsRegion v => { fl with awsRegion := v }
  | .awsAccessKeyId v => { fl with awsAccessKeyId := v }
  | .awsSecretAccessKey v => { fl with awsSecretAccessKey := v }
  | .s3LoaderBucket v => { fl with s3LoaderBucket := v }
  | .s3LoaderBaseDir v => { fl with s3LoaderBaseDir := v }
  | .s3LoaderPathPrefix v => { fl with s3LoaderPathPrefix := v }
  | .s3StorageBucket v => { fl with s3StorageBucket := v }
  | .s3StorageBaseDir v => { fl with s3StorageBaseDir := v }
  | .s3StoragePathPrefix v => { fl with s3StoragePathPrefix := v }
  | .fileLoaderBaseDir v => { fl with fileLoaderBaseDir := v }
  | .fileLoaderPathPrefix v => { fl with fileLoaderPathPrefix := v }
  | .fileStorageBaseDir v => { fl with fileStorageBaseDir := v }
  | .fileStoragePathPrefix v => { fl with fileStoragePathPrefix := v }

/-- The flag set after `ff.Parse` (line 105) has succeeded: the declared
defaults, overwritten by the supplied values in the order the library stores
them.  `ff` is a library outside the repository; only this effect on the flag
variables is modelled, and a failed parse (which panics before anything is
built) is not. -/
def parsedFlags (supplied : List Supplied) : Flags :=
  supplied.foldl Flags.set defaultFlags

/-- A `*zap.Logger`, told apart by the constructor that made it. -/
inductive Logger where
  | development
  | production
  deriving DecidableEq, Repr

/-- The `aws.Config` handed to `session.NewSession` (lines 120-124). -/
structure AwsConfig where
  region : String
  accessKeyId : String
  secretAccessKey : String
  deriving DecidableEq, Repr

/-- An AWS session, identified by the configuration it was opened with. -/
structure Session where
  config : AwsConfig
  deriving DecidableEq, Repr

/-- The options of `httploader.New` (lines 165-172). -/
structure HTTPLoaderOptions where
  forwardUserAgent : Bool
  forwardAllHeaders : Bool
  forwardHeaders : String
  allowedSources : String
  maxAllowedSize : Int
  insecureSkipVerifyTransport : Bool
  deriving DecidableEq, Repr

/-- A loader or storage backend as `main` constructs it: the constructor
called and the arguments it is called with. -/
inductive Backend where
  | s3store (sess : Session) (bucket : String) (pathPrefix : String) (baseDir : String)
  | filestore (baseDir : String) (pathPrefix : String)
  | httploader (opts : HTTPLoaderOptions)
  deriving DecidableEq, Repr

/-- The backend was built by `s3store.New`. -/
def Backend.isS3 : Backend → Bool
  | .s3store _ _ _ _ => true
  | _ => false

/-- The backend was built by `filestore.New`. -/
def Backend.isFile : Backend → Bool
  | .filestore _ _ => true
  | _ => false

/-- The options of `vipsprocessor.New` (lines 180-185). -/
structure VipsProcessor where
  disableBlur : Bool
  disableFilters : String
  logger : Logger
  debug : Bool
  deriving DecidableEq, Repr

/-- The options `main` passes to `imagor.New` (lines 176-193). -/
structure ImagorOptions where
  withLoaders : List Backend
  withStorages : List Backend
  withProcessors : List VipsProcessor
  withSecret : String
  withRequestTimeout : Duration
  withSaveTimeout : Duration
  withUnsafe : Bool
  withLogger : Logger
  withDebug : Bool
  deriving DecidableEq, Repr

/-- The arguments `main` passes to `server.New` (lines 175-200). -/
structure ServerOptions where
  app : ImagorOptions
  withAddress : String
  withPort : Int
  withPathPrefix : String
  withCORS : Bool
  withLogger : Logger
  withDebug : Bool
  deriving DecidableEq, Repr

/-- Why `main` panicked before reaching `server.New`. -/
inductive Panic where
  | logger (err : String)
  | session (err : String)
  deriving DecidableEq, Repr

/-- The outcome of the fallible library constructors `main` calls:
`zap.NewDevelopment`, `zap.NewProduction` and `session.NewSession`.  `none`
is success, `some err` the error returned. -/
structure World where
  newDevelopment : Option String
  newProduction : Option String
  newSession : AwsConfig → Option String

/-- A world in which none of the three constructors fails. -/
def World.reliable : World where
  newDevelopment := none
  newProduction := none
  newSession := fun _ => none

/-! ## `main` -/

/-- Lines 109-117: the logger, or the panic of a failed constructor. -/
def makeLogger (w : World) (fl : Flags) : Except Panic Logger :=
  if fl.debug then
    match w.newDevelopment with
    | some err => .error (.logger err)
    | none => .ok .development
  else
    match w.newProduction with
    | some err => .error (.logger err)
    | none => .ok .production

/-- Lines 119-144: the AWS block, run on the loader list built so far.  Both
inner branches append to `loaders`. -/
def awsBlock (w : World) (fl : Flags) (loaders : List Backend) :
    Except Panic (List Backend) :=
  if fl.awsRegion ≠ "" ∧ fl.awsAccessKeyId ≠ "" ∧ fl.awsSecretAccessKey ≠ "" then
    let cfg : AwsConfig := ⟨fl.awsRegion, fl.awsAccessKeyId, fl.awsSecretAccessKey⟩
    match w.newSession cfg with
    | some err => .error (.session err)
    | none =>
      let sess : Session := ⟨cfg⟩
      let loaders :=
        if fl.s3LoaderBucket ≠ "" then
          loaders ++ [.s3store sess fl.s3LoaderBucket fl.s3LoaderPathPrefix fl.s3LoaderBaseDir]
        else loaders
      let loaders :=
        if fl.s3StorageBucket ≠ "" then
          loaders ++
            [.s3store sess fl.s3StorageBucket fl.s3StoragePathPrefix fl.s3StorageBaseDir]
        else loaders
      .ok loaders
  else .ok loaders

/-- Lines 146-153: the file loader. -/
def fileLoaderBlock (fl : Flags) (loaders : List Backend) : List Backend :=
  if fl.fileLoaderBaseDir ≠ "" then
    loaders ++ [.filestore fl.fileLoaderBaseDir fl.fileLoaderPathPrefix]
  else loaders

/-- Lines 155-162: the file storage.  The store is built on
`*fileLoaderBaseDir`. -/
def fileStorageBlock (fl : Flags) (storages : List Backend) : List Backend :=
  if fl.fileStorageBaseDir ≠ "" then
    storages ++ [.filestore fl.fileLoaderBaseDir fl.fileStoragePathPrefix]
  else storages

/-- Lines 164-173: the HTTP loader, always appended last. -/
def httpLoaderBlock (fl : Flags) (loaders : List Backend) : List Backend :=
  loaders ++ [.httploader
    { forwardUserAgent := fl.httpLoaderForwardUserAgent
      forwardAllHeaders := fl.httpLoaderForwardAllHeaders
      forwardHeaders := fl.httpLoaderForwardHeaders
      allowedSources := fl.httpLoaderAllowedSources
      maxAllowedSize := fl.httpLoaderMaxAllowedSize
      insecureSkipVerifyTransport := fl.httpLoaderInsecureSkipVerifyTransport }]

/-- Lines 175-200: the value handed to `server.New`, from the finished lists. -/
def compose (fl : Flags) (logger : Logger) (loaders storages : List Backend) :
    ServerOptions where
  app :=
    { withLoaders := loaders
      withStorages := storages
      withProcessors :=
        [{ disableBlur := fl.vipsDisableBlur
           disableFilters := fl.vipsDisableFilters
           logger := logger
           debug := fl.debug }]
      withSecret := fl.imagorSecret
      withRequestTimeout := fl.imagorRequestTimeout
      withSaveTimeout := fl.imagorSaveTimeout
      withUnsafe := fl.imagorUnsafe
      withLogger := logger
      withDebug := fl.debug }
  withAddress := fl.serverAddress
  withPort := fl.port
  withPathPrefix := fl.serverPathPrefix
  withCORS := fl.serverCORS
  withLogger := logger
  withDebug := fl.debug

/-- The body of `main` after flag parsing (lines 109-200): `loaders` and
`storages` start empty (nil slices, lines 25-26) and are threaded through the
blocks in source order. -/
def main (w : World) (fl : Flags) : Except Panic ServerOptions :=
  match makeLogger w fl with
  | .error p => .error p
  | .ok logger =>
    match awsBlock w fl [] with
    | .error p => .error p
    | .ok loaders =>
      let loaders := fileLoaderBlock fl loaders
      let storages := fileStorageBlock fl []
      let loaders := httpLoaderBlock fl loaders
      .ok (compose fl logger loaders storages)

/-! ## Example configurations -/

/-- Only the port supplied: the secret, the unsafe switch and both timeouts
keep their defaults. -/
def onlyPort : Flags := parsedFlags [.port 8000]

/-- Only the request timeout supplied, five seconds. -/
def shortRequest : Flags := parsedFlags [.imagorRequestTimeout (5 * Second)]

/-- AWS values and `s3-storage-bucket` supplied, no `s3-loader-bucket`. -/
def s3StorageOnly : Flags :=
  parsedFlags [.awsRegion "us-east-1", .awsAccessKeyId "AKIAEXAMPLE",
    .awsSecretAccessKey "wJalrEXAMPLE", .s3StorageBucket "results",
    .s3StoragePathPrefix "/img", .s3StorageBaseDir "cache"]

/-- Only `s3-storage-bucket` and the AWS values supplied: `s3-loader-bucket`
keeps its empty default. -/
def s3LoaderAbsent : Flags :=
  parsedFlags [.awsRegion "eu-west-1", .awsAccessKeyId "AKIAEXAMPLE",
    .awsSecretAccessKey "wJalrEXAMPLE", .s3StorageBucket "thumbs"]

/-- Different directories for the file loader and the file storage. -/
def fileDirsDiffer : Flags :=
  parsedFlags [.fileLoaderBaseDir "/srv/in", .fileStorageBaseDir "/srv/out",
    .fileStoragePathPrefix "/saved"]

/-- Both buckets supplied, but no `aws-access-key-id`. -/
def awsKeyMissing : Flags :=
  parsedFlags [.awsRegion "us-east-1", .awsSecretAccessKey "wJalrEXAMPLE",
    .s3LoaderBucket "sources", .s3StorageBucket "results"]

/-- A file loader next to a complete S3 configuration. -/
def fileAndS3 : Flags :=
  parsedFlags [.awsRegion "us-east-1", .awsAccessKeyId "AKIAEXAMPLE",
    .awsSecretAccessKey "wJalrEXAMPLE", .s3LoaderBucket "sources",
    .fileLoaderBaseDir "/srv/in", .fileLoaderPathPrefix "/local"]

/-! ## Request coalescing (spec §4.4 and §4.5)

`main` only constructs the engine; the engine itself (package `imagor`) is not
among the sources.  The definitions of this section model, from the spec, what
the engine does with `N` calls to `Process` that carry the same path, hence the
same fingerprint: the per-fingerprint state machine of the RequestCoalescer
and the leader's fetch and transform work.  A run is a list of events; the
interleavings of the calls are the lists the step function accepts. -/

namespace Coalescer

/-- Modelled from the spec: the Blob of §3 (package `imagor` is not under
`src/`), "an in-memory byte payload plus a content-type/media-type tag". -/
structure Blob where
  bytes : List (Fin 256)
  contentType : String
  deriving DecidableEq, Repr

/-- Modelled from the spec: the error kinds among the terminal states of a
request (§4.5: `ClientFault`, `NotFound`, `UpstreamFault`, `Timeout`); the
engine's error values are not under `src/`. -/
inductive Fault where
  | clientFault
  | notFound
  | upstreamFault
  | timeout
  deriving DecidableEq, Repr

/-- Modelled from the spec: what one call to `Process` returns (§4.5,
`Process(path, unsafeAllowed) → (Blob, error)`), the output bytes or an error
kind. -/
inductive Outcome where
  | served (b : Blob)
  | failed (f : Fault)
  deriving DecidableEq, Repr

/-- Modelled from the spec: what a backend answers (§6, `Fetch(key) → (bytes,
contentType) | error` and `Process(...) → (bytes, contentType) | error`), as
the engine sees it after `Load` (§4.2) or `Apply` (§4.3). -/
inductive Reply where
  | blob (b : Blob)
  | error (f : Fault)
  deriving DecidableEq, Repr

/-- The outcome a call gets when the reply of `Apply` ends the work. -/
def Reply.outcome : Reply → Outcome
  | .blob b => .served b
  | .error f => .failed f

/-- Modelled from the spec: the InFlightEntry of the one fingerprint the calls
share, in the states of §4.4 ("absent → running → settled → absent"), with the
"slot for the eventual result-or-error" and the "count of waiters" of §3. -/
inductive InFlightEntry where
  | absent
  | running (waiters : Nat)
  | settled (result : Outcome) (waiters : Nat)
  deriving DecidableEq, Repr

/-- Modelled from the spec: how far one call to `Process` has come (§4.5).
`pending`: not made yet.  `fetching`: leader, its `Load` has invoked
`Loader.Fetch`.  `applying`: leader, `Processor.Apply` has been invoked on the
fetched blob.  `waiting`: follower, blocked until settlement.  `returned`: the
call has returned its outcome. -/
inductive Call where
  | pending
  | fetching
  | applying (source : Blob)
  | waiting
  | returned (o : Outcome)
  deriving DecidableEq, Repr

/-- The call has returned. -/
def Call.isReturned : Call → Bool
  | .returned _ => true
  | _ => false

/-- Modelled from the spec: the engine as the `N` calls see it: the calls, the
entry of their fingerprint, and how often `Loader.Fetch` and `Processor.Apply`
have been invoked so far.  The engine is given one Loader and one Processor,
as in the scenario of §8 ("the sole configured Loader"); the fallback over
several backends (§4.2, §4.3) is not part of this model. -/
structure Engine where
  calls : List Call
  entry : InFlightEntry
  fetches : Nat
  applies : Nat
  deriving DecidableEq, Repr

/-- The engine before any of the `n` calls is made. -/
def init (n : Nat) : Engine where
  calls := List.replicate n .pending
  entry := .absent
  fetches := 0
  applies := 0

/-- Modelled from the spec: the things that can happen next (§4.4, §4.5).
`enter i`: call `i` is made, `Process` parses and verifies the path and, if
it is accepted, calls `Begin`.  `fetched i r`: the Fetch of leader `i`
answers `r`.  `applied i r`: the Apply of leader `i` answers `r`.
`deadline i`: the request timeout expires while leader `i` works.
`fault i f`: leader `i` dies of a panic, surfaced as `f`.  `wake i`:
follower `i` is woken after settlement.  `remove`: the settled entry is
removed. -/
inductive Event where
  | enter (i : Nat)
  | fetched (i : Nat) (r : Reply)
  | applied (i : Nat) (r : Reply)
  | deadline (i : Nat)
  | fault (i : Nat) (f : Fault)
  | wake (i : Nat)
  | remove
  deriving DecidableEq, Repr

/-- The event is a call being made. -/
def Event.isEnter : Event → Bool
  | .enter _ => true
  | _ => false

/-- The event is the removal of the entry. -/
def Event.isRemove : Event → Bool
  | .remove => true
  | _ => false

/-- The event is a Fetch answering with a blob. -/
def Event.isBlobFetched : Event → Bool
  | .fetched _ (.blob _) => true
  | _ => false

/-- Modelled from the spec: `Settle(fingerprint, result-or-error)` of §4.4 by
leader `i`, "transition to settled", together with step 4 of §4.5, "Leader
returns the blob to its caller (and triggers follower wake-up)".  Only a
running entry can be settled. -/
def settle (s : Engine) (i : Nat) (o : Outcome) : Option Engine :=
  match s.entry with
  | .running w =>
    some { s with calls := s.calls.set i (.returned o), entry := .settled o w }
  | _ => none

/-- Modelled from the spec: `Begin(fingerprint)` of §4.4 by call `i`.  "If no
entry exists, create one in `running`, return 'you are the leader — do the
work'": the leader starts the work, so its Fetch is invoked.  "If an entry
exists in `running`, register as a follower and block until settlement."  "If
an entry exists in `settled` ..., return the cached result immediately." -/
def begin (s : Engine) (i : Nat) : Engine :=
  match s.entry with
  | .absent =>
    { calls := s.calls.set i .fetching, entry := .running 0,
      fetches := s.fetches + 1, applies := s.applies }
  | .running w =>
    { s with calls := s.calls.set i .waiting, entry := .running (w + 1) }
  | .settled o _ =>
    { s with calls := s.calls.set i (.returned o) }

/-- Modelled from the spec: one step of the engine, `none` where the event
cannot happen in the state.  `accepted` is the verdict of step 1 of §4.5
("Parse + verify signature") on the path the calls share; a rejected path is
a `ClientFault` before the coalescer is reached.  Step 3, "Leader executes
`Load` then `Apply` under one bounded deadline": `Apply(Blob, Params)` (§4.3)
is invoked on the blob `Load` returned, so a `Load` that fails (§4.2, `Load(key)
→ Blob | LoaderError`) settles the entry with its error and no Apply, and so
does the deadline "while a Loader is fetching" (§8).  A leader that dies
"must still settle followers (with a failure outcome)" (§4.4).  The entry is
"destroyed once the work completes and all waiters have observed the result"
(§3). -/
def step (accepted : Bool) (s : Engine) : Event → Option Engine
  | .enter i =>
    match s.calls[i]? with
    | some .pending =>
      if accepted then some (begin s i)
      else some { s with calls := s.calls.set i (.returned (.failed .clientFault)) }
    | _ => none
  | .fetched i r =>
    match s.calls[i]? with
    | some .fetching =>
      match r with
      | .blob b =>
        some { s with calls := s.calls.set i (.applying b), applies := s.applies + 1 }
      | .error f => settle s i (.failed f)
    | _ => none
  | .applied i r =>
    match s.calls[i]? with
    | some (.applying _) => settle s i r.outcome
    | _ => none
  | .deadline i =>
    match s.calls[i]? with
    | some .fetching => settle s i (.failed .timeout)
    | some (.applying _) => settle s i (.failed .timeout)
    | _ => none
  | .fault i f =>
    match s.calls[i]? with
    | some .fetching => settle s i (.failed f)
    | some (.applying _) => settle s i (.failed f)
    | _ => none
  | .wake i =>
    match s.calls[i]? with
    | some .waiting =>
      match s.entry with
      | .settled o w =>
        some { s with calls := s.calls.set i (.returned o), entry := .settled o (w - 1) }
      | _ => none
    | _ => none
  | .remove =>
    match s.entry with
    | .settled _ 0 => some { s with entry := .absent }
    | _ => none

/-- The engine after a schedule, `none` if one of its events cannot happen. -/
def exec (accepted : Bool) : Engine → List Event → Option Engine
  | s, [] => some s
  | s, e :: rest =>
    match step accepted s e with
    | some s' => exec accepted s' rest
    | none => none

/-- Modelled from the spec: the calls of a schedule are concurrent when each
of them is made while the entry of the first is in flight, that is, no call
is made after the entry has been removed.  (§4.4: a call that finds no entry
creates one and is a leader of its own; the settled entry still serves the
"followers that arrive a few scheduling ticks after leader settlement, before
cleanup".) -/
def concurrent : List Event → Bool
  | [] => true
  | .remove :: rest => rest.all (fun e => !e.isEnter)
  | _ :: rest => concurrent rest

/-- Every call has returned. -/
def allReturned (s : Engine) : Bool := s.calls.all Call.isReturned

/-- What holds of an engine whose entry has been settled with `o`. -/
def Settled (o : Outcome) (s : Engine) : Prop :=
  (∀ c ∈ s.calls, c = .pending ∨ c = .waiting ∨ c = .returned o) ∧
  s.fetches = 1 ∧ s.applies ≤ 1 ∧ (∀ b, o = .served b → s.applies = 1)

/-- What holds while the leader, call `k`, is at work. -/
def Working (k : Nat) (s : Engine) : Prop :=
  s.fetches = 1 ∧
  ((s.calls[k]? = some .fetching ∧ s.applies = 0) ∨
    (∃ b, s.calls[k]? = some (.applying b)) ∧ s.applies = 1) ∧
  ∀ j c, j ≠ k → s.calls[j]? = some c → c = .pending ∨ c = .waiting

/-- The invariant of the runs of an accepted path; `removed` tells whether the
entry has been removed already. -/
def Inv (removed : Bool) (s : Engine) : Prop :=
  match removed, s.entry with
  | false, .absent => (∀ c ∈ s.calls, c = .pending) ∧ s.fetches = 0 ∧ s.applies = 0
  | false, .running _ => ∃ k, Working k s
  | false, .settled o _ => Settled o s
  | true, .absent => ∃ o, Settled o s
  | true, _ => False

/-- The invariant of the runs of a rejected path: nobody reaches the
coalescer. -/
def Rejected (s : Engine) : Prop :=
  s.entry = .absent ∧ s.fetches = 0 ∧ s.applies = 0 ∧
  ∀ c ∈ s.calls, c = .pending ∨ c = .returned (.failed .clientFault)

/-- The concurrency condition on what is left of a schedule, once it is known
whether the entry has been removed already. -/
def concurrentFrom (removed : Bool) (sched : List Event) : Bool :=
  if removed then sched.all (fun e => !e.isEnter) else concurrent sched

/-- A complete run of `m + 1` calls: call 0 becomes the leader, the other `m`
calls join as followers while it works, the Fetch returns `source`, the Apply
answers `r`, and the followers are woken. -/
def fullRun (m : Nat) (source : Blob) (r : Reply) : List Event :=
  .enter 0 :: (List.range' 1 m).map .enter ++
    (.fetched 0 (.blob source) :: .applied 0 r :: (List.range' 1 m).map .wake)

/-- Three calls, served: call 1 leads, call 0 joins while it fetches, call 2
while it transforms; both are woken and the entry is removed. -/
def servedRun : List Event :=
  [.enter 1, .enter 0, .fetched 1 (.blob ⟨[1, 2], "image/png"⟩), .enter 2,
   .applied 1 (.blob ⟨[9], "image/webp"⟩), .wake 0, .wake 2, .remove]

/-- The engine at the end of `servedRun`. -/
def servedEnd : Engine :=
  ⟨List.replicate 3 (.returned (.served ⟨[9], "image/webp"⟩)), .absent, 1, 1⟩

/-- Two calls whose source does not exist: the Fetch of the leader answers
`NotFound`. -/
def notFoundRun : List Event :=
  [.enter 0, .enter 1, .fetched 0 (.error .notFound), .wake 1]

/-- Two calls with a path that step 1 rejects. -/
def rejectedRun : List Event :=
  [.enter 0, .enter 1]

/-- Two calls, the second made only after the entry of the first has been
removed. -/
def lateRun : List Event :=
  [.enter 0, .fetched 0 (.blob ⟨[1, 2], "image/png"⟩),
   .applied 0 (.blob ⟨[9], "image/webp"⟩), .remove, .enter 1,
   .fetched 1 (.blob ⟨[1, 2], "image/png"⟩), .applied 1 (.blob ⟨[9], "image/webp"⟩)]

end Coalescer

/-! ## Shared lemmas -/

theorem main_ok_inv {w : World} {fl : Flags} {c : ServerOptions}
    (h : main w fl = .ok c) :
    ∃ logger l0, awsBlock w fl [] = .ok l0 ∧
      c = compose fl logger (httpLoaderBlock fl (fileLoaderBlock fl l0))
            (fileStorageBlock fl []) := by
  unfold main at h
  cases hlog : makeLogger w fl with
  | error p => rw [hlog] at h; exact absurd h (by simp)
  | ok logger =>
    cases haws : awsBlock w fl [] with
    | error p => rw [hlog, haws] at h; exact absurd h (by simp)
    | ok l0 =>
      rw [hlog, haws] at h
      exact ⟨logger, l0, rfl, by simpa using h.symm⟩

/-- With reliable constructors `main` always reaches `server.New`. -/
theorem main_reliable (fl : Flags) : ∃ c, main World.reliable fl = .ok c := by
  unfold main makeLogger awsBlock World.reliable
  by_cases hd : fl.debug = true <;>
    by_cases ha : fl.awsRegion ≠ "" ∧ fl.awsAccessKeyId ≠ "" ∧ fl.awsSecretAccessKey ≠ "" <;>
    simp [hd, ha]

/-- Without the three AWS values the AWS block leaves the loader list as it
found it and opens no session. -/
theorem awsBlock_of_missing (w : World) (fl : Flags) (l : List Backend)
    (h : fl.awsRegion = "" ∨ fl.awsAccessKeyId = "" ∨ fl.awsSecretAccessKey = "") :
    awsBlock w fl l = .ok l := by
  unfold awsBlock
  have hn : ¬ (fl.awsRegion ≠ "" ∧ fl.awsAccessKeyId ≠ "" ∧ fl.awsSecretAccessKey ≠ "") := by
    rintro ⟨h1, h2, h3⟩
    rcases h with h | h | h
    · exact h1 h
    · exact h2 h
    · exact h3 h
  rw [if_neg hn]

/-- The AWS block only ever appends S3 stores. -/
theorem awsBlock_mem {w : World} {fl : Flags} {l l' : List Backend}
    (h : awsBlock w fl l = .ok l') (b : Backend) (hb : b ∈ l') :
    b ∈ l ∨ b.isS3 = true := by
  unfold awsBlock at h
  by_cases hc : fl.awsRegion ≠ "" ∧ fl.awsAccessKeyId ≠ "" ∧ fl.awsSecretAccessKey ≠ ""
  · rw [if_pos hc] at h
    cases hs : w.newSession ⟨fl.awsRegion, fl.awsAccessKeyId, fl.awsSecretAccessKey⟩ with
    | some err => simp only [hs] at h; exact absurd h (by simp)
    | none =>
      simp only [hs] at h
      have h' := (Except.ok.inj h).symm
      subst h'
      by_cases h1 : fl.s3LoaderBucket ≠ "" <;> by_cases h2 : fl.s3StorageBucket ≠ ""
      · rw [if_pos h1, if_pos h2] at hb
        simp only [List.mem_append, List.mem_singleton] at hb
        rcases hb with (hb | hb) | hb
        · exact Or.inl hb
        · exact Or.inr (by rw [hb]; rfl)
        · exact Or.inr (by rw [hb]; rfl)
      · rw [if_pos h1, if_neg h2] at hb
        simp only [List.mem_append, List.mem_singleton] at hb
        rcases hb with hb | hb
        · exact Or.inl hb
        · exact Or.inr (by rw [hb]; rfl)
      · rw [if_neg h1, if_pos h2] at hb
        simp only [List.mem_append, List.mem_singleton] at hb
        rcases hb with hb | hb
        · exact Or.inl hb
        · exact Or.inr (by rw [hb]; rfl)
      · rw [if_neg h1, if_neg h2] at hb
        exact Or.inl hb
  · rw [if_neg hc] at h
    have h' := (Except.ok.inj h).symm
    subst h'
    exact Or.inl hb

/-- A projection of the flags that no supplied value touches has, after
parsing, the value it started with. -/
theorem foldl_set_keep {α : Type} (π : Flags → α) (supplied : List Supplied)
    (hkeep : ∀ s ∈ supplied, ∀ fl, π (fl.set s) = π fl) (fl0 : Flags) :
    π (supplied.foldl Flags.set fl0) = π fl0 := by
  induction supplied generalizing fl0 with
  | nil => rfl
  | cons s rest ih =>
    rw [List.foldl_cons, ih (fun t ht => hkeep t (List.mem_cons_of_mem _ ht)),
      hkeep s (List.mem_cons_self _ _)]

theorem parsedFlags_imagorUnsafe (supplied : List Supplied)
    (h : ∀ v, Supplied.imagorUnsafe v ∉ supplied) :
    (parsedFlags supplied).imagorUnsafe = false := by
  unfold parsedFlags
  rw [foldl_set_keep (fun fl => fl.imagorUnsafe)]
  · rfl
  · intro s hs fl
    cases s <;> first | rfl | exact absurd hs (h _)

theorem parsedFlags_imagorRequestTimeout (supplied : List Supplied)
    (h : ∀ v, Supplied.imagorRequestTimeout v ∉ supplied) :
    (parsedFlags supplied).imagorRequestTimeout = 30 * Second := by
  unfold parsedFlags
  rw [foldl_set_keep (fun fl => fl.imagorRequestTimeout)]
  · rfl
  · intro s hs fl
    cases s <;> first | rfl | exact absurd hs (h _)

theorem parsedFlags_imagorSaveTimeout (supplied : List Supplied)
    (h : ∀ v, Supplied.imagorSaveTimeout v ∉ supplied) :
    (parsedFlags supplied).imagorSaveTimeout = Minute := by
  unfold parsedFlags
  rw [foldl_set_keep (fun fl => fl.imagorSaveTimeout)]
  · rfl
  · intro s hs fl
    cases s <;> first | rfl | exact absurd hs (h _)

/-- The storage list `main` hands over is what the file storage block makes
of the empty list: no other statement touches `storages`. -/
theorem main_storages {w : World} {fl : Flags} {c : ServerOptions}
    (h : main w fl = .ok c) : c.app.withStorages = fileStorageBlock fl [] := by
  obtain ⟨logger, l0, -, hc⟩ := main_ok_inv h
  rw [hc]
  rfl

/-- Whatever the flags, the storage list is empty or holds exactly one file
store, built on the base directory of the file loader and on the path prefix
of the file storage. -/
theorem main_storages_cases {w : World} {fl : Flags} {c : ServerOptions}
    (h : main w fl = .ok c) :
    (fl.fileStorageBaseDir = "" ∧ c.app.withStorages = []) ∨
    (fl.fileStorageBaseDir ≠ "" ∧
      c.app.withStorages = [.filestore fl.fileLoaderBaseDir fl.fileStoragePathPrefix]) := by
  rw [main_storages h]
  unfold fileStorageBlock
  by_cases hf : fl.fileStorageBaseDir ≠ ""
  · rw [if_pos hf]
    exact Or.inr ⟨hf, rfl⟩
  · rw [if_neg hf]
    exact Or.inl ⟨not_not.mp hf, rfl⟩

/-- No configuration puts an S3 store in the storage list. -/
theorem main_storages_no_s3 {w : World} {fl : Flags} {c : ServerOptions}
    (h : main w fl = .ok c) : ∀ b ∈ c.app.withStorages, b.isS3 = false := by
  intro b hb
  rcases main_storages_cases h with ⟨-, hs⟩ | ⟨-, hs⟩
  · rw [hs] at hb
    exact absurd hb (List.not_mem_nil b)
  · rw [hs, List.mem_singleton] at hb
    rw [hb]
    rfl

/-- Every member of the loader list `main` hands over is an S3 store, the
file loader of lines 146-153 (present only under its guard), or the HTTP
loader. -/
theorem main_loaders_mem {w : World} {fl : Flags} {c : ServerOptions}
    (h : main w fl = .ok c) (b : Backend) (hb : b ∈ c.app.withLoaders) :
    b.isS3 = true ∨
    (fl.fileLoaderBaseDir ≠ "" ∧
      b = .filestore fl.fileLoaderBaseDir fl.fileLoaderPathPrefix) ∨
    ∃ o, b = .httploader o := by
  obtain ⟨logger, l0, haws, hc⟩ := main_ok_inv h
  rw [hc] at hb
  change b ∈ httpLoaderBlock fl (fileLoaderBlock fl l0) at hb
  unfold httpLoaderBlock at hb
  rw [List.mem_append, List.mem_singleton] at hb
  rcases hb with hb | hb
  · unfold fileLoaderBlock at hb
    by_cases hf : fl.fileLoaderBaseDir ≠ ""
    · rw [if_pos hf, List.mem_append, List.mem_singleton] at hb
      rcases hb with hb | hb
      · rcases awsBlock_mem haws b hb with h0 | h0
        · exact absurd h0 (List.not_mem_nil b)
        · exact Or.inl h0
      · exact Or.inr (Or.inl ⟨hf, hb⟩)
    · rw [if_neg hf] at hb
      rcases awsBlock_mem haws b hb with h0 | h0
      · exact absurd h0 (List.not_mem_nil b)
      · exact Or.inl h0
  · exact Or.inr (Or.inr ⟨_, hb⟩)

/-- Under its guard the file loader is a member of the loader list. -/
theorem main_loaders_file {w : World} {fl : Flags} {c : ServerOptions}
    (h : main w fl = .ok c) (hf : fl.fileLoaderBaseDir ≠ "") :
    Backend.filestore fl.fileLoaderBaseDir fl.fileLoaderPathPrefix ∈ c.app.withLoaders := by
  obtain ⟨logger, l0, -, hc⟩ := main_ok_inv h
  rw [hc]
  change _ ∈ httpLoaderBlock fl (fileLoaderBlock fl l0)
  unfold httpLoaderBlock fileLoaderBlock
  rw [if_pos hf]
  simp

/-- The scalar engine options are the flag values, unchanged. -/
theorem main_scalars {w : World} {fl : Flags} {c : ServerOptions}
    (h : main w fl = .ok c) :
    c.app.withUnsafe = fl.imagorUnsafe ∧ c.app.withSecret = fl.imagorSecret ∧
    c.app.withRequestTimeout = fl.imagorRequestTimeout ∧
    c.app.withSaveTimeout = fl.imagorSaveTimeout := by
  obtain ⟨logger, l0, -, hc⟩ := main_ok_inv h
  rw [hc]
  exact ⟨rfl, rfl, rfl, rfl⟩

/-! ## The flag documentation, checked against `main` -/

/-- C1, evaluated on the code: with the three AWS values and
`s3-storage-bucket` all supplied, the storage list handed to
`imagor.WithStorages` is empty, and the S3 store built on the storage bucket,
its path prefix and its base directory stands in the loader list instead. -/
theorem s3_storage_store_goes_to_loaders :
    s3StorageOnly.awsRegion ≠ "" ∧ s3StorageOnly.awsAccessKeyId ≠ "" ∧
    s3StorageOnly.awsSecretAccessKey ≠ "" ∧ s3StorageOnly.s3StorageBucket ≠ "" ∧
    ∃ c, main World.reliable s3StorageOnly = .ok c ∧
      c.app.withStorages = [] ∧
      c.app.withLoaders =
        [.s3store ⟨⟨"us-east-1", "AKIAEXAMPLE", "wJalrEXAMPLE"⟩⟩
            s3StorageOnly.s3StorageBucket s3StorageOnly.s3StoragePathPrefix
            s3StorageOnly.s3StorageBaseDir,
         .httploader ⟨false, false, "", "", 0, false⟩] :=
  ⟨by decide, by decide, by decide, by decide, _, rfl, rfl, rfl⟩

/-- C2, evaluated on the code: with `file-loader-base-dir` `/srv/in` and
`file-storage-base-dir` `/srv/out` the storage list holds one file store, and
its base directory is `/srv/in`, the loader's, not the `file-storage-base-dir`
value; its path prefix is the `file-storage-path-prefix` value. -/
theorem file_storage_built_on_loader_dir :
    fileDirsDiffer.fileStorageBaseDir = "/srv/out" ∧
    fileDirsDiffer.fileLoaderBaseDir = "/srv/in" ∧
    fileDirsDiffer.fileStoragePathPrefix = "/saved" ∧
    ∃ c, main World.reliable fileDirsDiffer = .ok c ∧
      c.app.withStorages = [.filestore "/srv/in" "/saved"] ∧
      Backend.filestore "/srv/out" "/saved" ∉ c.app.withStorages :=
  ⟨rfl, rfl, rfl,
    compose fileDirsDiffer .production
      [.filestore "/srv/in" "", .httploader ⟨false, false, "", "", 0, false⟩]
      [.filestore "/srv/in" "/saved"],
    rfl, rfl, by decide⟩

/-- C3, evaluated on the code: with `s3-loader-bucket` empty (its default) but
the AWS values and `s3-storage-bucket` supplied, the loader list handed to
`imagor.WithLoaders` holds an S3 store, the one built on the storage bucket. -/
theorem s3_loader_without_loader_bucket :
    s3LoaderAbsent.s3LoaderBucket = "" ∧
    ∃ c, main World.reliable s3LoaderAbsent = .ok c ∧
      ∃ b ∈ c.app.withLoaders, b.isS3 = true ∧
        b = .s3store ⟨⟨"eu-west-1", "AKIAEXAMPLE", "wJalrEXAMPLE"⟩⟩ "thumbs" "" "" :=
  ⟨rfl,
    compose s3LoaderAbsent .production
      [.s3store ⟨⟨"eu-west-1", "AKIAEXAMPLE", "wJalrEXAMPLE"⟩⟩ "thumbs" "" "",
       .httploader ⟨false, false, "", "", 0, false⟩] [],
    rfl, _, List.mem_cons_self _ _, rfl, rfl⟩

/-- C4: when at least one of `aws-region`, `aws-access-key-id`,
`aws-secret-access-key` is empty, neither the loader list nor the storage list
handed to the engine holds an S3 store, whatever the two bucket flags are. -/
theorem aws_values_required (w : World) (fl : Flags) (c : ServerOptions)
    (haws : fl.awsRegion = "" ∨ fl.awsAccessKeyId = "" ∨ fl.awsSecretAccessKey = "")
    (hmain : main w fl = .ok c) :
    (∀ b ∈ c.app.withLoaders, b.isS3 = false) ∧
    (∀ b ∈ c.app.withStorages, b.isS3 = false) := by
  obtain ⟨logger, l0, hl0, hc⟩ := main_ok_inv hmain
  rw [awsBlock_of_missing w fl [] haws] at hl0
  have hnil : l0 = [] := (Except.ok.inj hl0).symm
  subst hnil
  constructor
  · intro b hb
    rw [hc] at hb
    change b ∈ httpLoaderBlock fl (fileLoaderBlock fl []) at hb
    unfold httpLoaderBlock fileLoaderBlock at hb
    by_cases hf : fl.fileLoaderBaseDir ≠ ""
    · rw [if_pos hf] at hb
      simp only [List.nil_append, List.cons_append, List.mem_cons, List.mem_singleton,
        List.not_mem_nil, or_false] at hb
      rcases hb with hb | hb <;> rw [hb] <;> rfl
    · rw [if_neg hf] at hb
      simp only [List.nil_append, List.mem_singleton] at hb
      rw [hb]; rfl
  · exact main_storages_no_s3 hmain

/-- Witness for `aws_values_required`: both buckets supplied, no access key
id. -/
theorem aws_values_required_witness :
    awsKeyMissing.s3LoaderBucket = "sources" ∧ awsKeyMissing.s3StorageBucket = "results" ∧
    awsKeyMissing.awsAccessKeyId = "" ∧
    ∃ c, main World.reliable awsKeyMissing = .ok c ∧
      (∀ b ∈ c.app.withLoaders, b.isS3 = false) ∧
      (∀ b ∈ c.app.withStorages, b.isS3 = false) :=
  ⟨rfl, rfl, rfl,
    compose awsKeyMissing .production [.httploader ⟨false, false, "", "", 0, false⟩] [],
    rfl,
    aws_values_required World.reliable awsKeyMissing _ (Or.inr (Or.inl rfl)) rfl⟩

/-- C5: unsafe mode is never a default.  The value handed to
`imagor.WithUnsafe` is the `imagor-unsafe` flag value; it is `false` whenever
no value was supplied for that flag; and two runs that agree on the flag hand
over the same value whatever their other flags (the secret included) are. -/
theorem unsafe_mode_only_by_flag (w : World) (fl : Flags) (c : ServerOptions)
    (hmain : main w fl = .ok c) :
    c.app.withUnsafe = fl.imagorUnsafe ∧
    (∀ supplied : List Supplied, fl = parsedFlags supplied →
      (∀ v, Supplied.imagorUnsafe v ∉ supplied) → c.app.withUnsafe = false) ∧
    (∀ (w' : World) (fl' : Flags) (c' : ServerOptions), main w' fl' = .ok c' →
      fl'.imagorUnsafe = fl.imagorUnsafe → c'.app.withUnsafe = c.app.withUnsafe) := by
  have hc := (main_scalars hmain).1
  refine ⟨hc, ?_, ?_⟩
  · intro supplied hfl hno
    rw [hc, hfl]
    exact parsedFlags_imagorUnsafe supplied hno
  · intro w' fl' c' hmain' hagree
    rw [hc, (main_scalars hmain').1, hagree]

/-- Witness for `unsafe_mode_only_by_flag`: nothing but the port supplied, so
the secret is empty and unsafe mode is off. -/
theorem unsafe_mode_only_by_flag_witness :
    ∃ c, main World.reliable onlyPort = .ok c ∧ c.app.withSecret = "" ∧
      c.app.withUnsafe = false :=
  ⟨compose onlyPort .production [.httploader ⟨false, false, "", "", 0, false⟩] [],
    rfl, rfl,
    (unsafe_mode_only_by_flag World.reliable onlyPort _ rfl).2.1 [.port 8000] rfl
      (by simp)⟩

/-- C6: the two deadlines are configured independently.  The request timeout
handed to the engine is the `imagor-request-timeout` flag and the save timeout
is the `imagor-save-timeout` flag; changing one of the two flags leaves the
other engine timeout as it was; and where no value is supplied they are 30
seconds and one minute. -/
theorem timeouts_independent (w : World) (fl : Flags) (c : ServerOptions)
    (hmain : main w fl = .ok c) :
    c.app.withRequestTimeout = fl.imagorRequestTimeout ∧
    c.app.withSaveTimeout = fl.imagorSaveTimeout ∧
    (∀ (w' : World) (d : Duration) (c' : ServerOptions),
      main w' { fl with imagorRequestTimeout := d } = .ok c' →
      c'.app.withSaveTimeout = c.app.withSaveTimeout) ∧
    (∀ (w' : World) (d : Duration) (c' : ServerOptions),
      main w' { fl with imagorSaveTimeout := d } = .ok c' →
      c'.app.withRequestTimeout = c.app.withRequestTimeout) ∧
    (∀ supplied : List Supplied, fl = parsedFlags supplied →
      (∀ v, Supplied.imagorRequestTimeout v ∉ supplied) →
      c.app.withRequestTimeout = 30 * Second) ∧
    (∀ supplied : List Supplied, fl = parsedFlags supplied →
      (∀ v, Supplied.imagorSaveTimeout v ∉ supplied) →
      c.app.withSaveTimeout = 60 * Second) := by
  obtain ⟨-, -, hreq, hsave⟩ := main_scalars hmain
  refine ⟨hreq, hsave, ?_, ?_, ?_, ?_⟩
  · intro w' d c' hmain'
    rw [hsave, (main_scalars hmain').2.2.2]
  · intro w' d c' hmain'
    rw [hreq, (main_scalars hmain').2.2.1]
  · intro supplied hfl hno
    rw [hreq, hfl]
    exact parsedFlags_imagorRequestTimeout supplied hno
  · intro supplied hfl hno
    rw [hsave, hfl]
    exact parsedFlags_imagorSaveTimeout supplied hno

/-- Witness for `timeouts_independent`: with only a five-second request
timeout supplied the engine gets five seconds for the request and the default
minute, in nanoseconds, for the save. -/
theorem timeouts_independent_witness :
    ∃ c, main World.reliable shortRequest = .ok c ∧
      c.app.withRequestTimeout = 5000000000 ∧ c.app.withSaveTimeout = 60000000000 :=
  ⟨compose shortRequest .production [.httploader ⟨false, false, "", "", 0, false⟩] [],
    rfl,
    (timeouts_independent World.reliable shortRequest _ rfl).1.trans (by decide),
    ((timeouts_independent World.reliable shortRequest _ rfl).2.2.2.2.2
      [.imagorRequestTimeout (5 * Second)] rfl (by simp)).trans (by decide)⟩

/-- C7: the loader list handed to `imagor.WithLoaders` holds a file loader
exactly when `file-loader-base-dir` is non-empty, and every file loader in it
is the one built on the `file-loader-base-dir` value with the
`file-loader-path-prefix` value as path prefix. -/
theorem file_loader_iff_base_dir (w : World) (fl : Flags) (c : ServerOptions)
    (hmain : main w fl = .ok c) :
    ((∃ b ∈ c.app.withLoaders, b.isFile = true) ↔ fl.fileLoaderBaseDir ≠ "") ∧
    (∀ b ∈ c.app.withLoaders, b.isFile = true →
      b = .filestore fl.fileLoaderBaseDir fl.fileLoaderPathPrefix) := by
  have key : ∀ b ∈ c.app.withLoaders, b.isFile = true →
      fl.fileLoaderBaseDir ≠ "" ∧
        b = .filestore fl.fileLoaderBaseDir fl.fileLoaderPathPrefix := by
    intro b hb hfile
    rcases main_loaders_mem hmain b hb with h | h | ⟨o, h⟩
    · cases b <;> simp [Backend.isS3, Backend.isFile] at h hfile
    · exact h
    · rw [h] at hfile
      simp [Backend.isFile] at hfile
  refine ⟨⟨?_, ?_⟩, fun b hb hfile => (key b hb hfile).2⟩
  · rintro ⟨b, hb, hfile⟩
    exact (key b hb hfile).1
  · intro hf
    exact ⟨_, main_loaders_file hmain hf, rfl⟩

/-- Witness for `file_loader_iff_base_dir`: a file loader on `/srv/in` with
prefix `/local`, listed after an S3 loader and before the HTTP loader. -/
theorem file_loader_iff_base_dir_witness :
    ∃ c, main World.reliable fileAndS3 = .ok c ∧
      c.app.withLoaders =
        [.s3store ⟨⟨"us-east-1", "AKIAEXAMPLE", "wJalrEXAMPLE"⟩⟩ "sources" "/" "/",
         .filestore "/srv/in" "/local",
         .httploader ⟨false, false, "", "", 0, false⟩] ∧
      ((∃ b ∈ c.app.withLoaders, b.isFile = true) ↔ fileAndS3.fileLoaderBaseDir ≠ "") ∧
      (∀ b ∈ c.app.withLoaders, b.isFile = true → b = .filestore "/srv/in" "/local") :=
  ⟨compose fileAndS3 .production
      [.s3store ⟨⟨"us-east-1", "AKIAEXAMPLE", "wJalrEXAMPLE"⟩⟩ "sources" "/" "/",
       .filestore "/srv/in" "/local",
       .httploader ⟨false, false, "", "", 0, false⟩] [],
    rfl, rfl, file_loader_iff_base_dir World.reliable fileAndS3 _ rfl⟩

/-! ## Request coalescing, checked against the model of spec §4.4 and §4.5 -/

namespace Coalescer

theorem settle_inv {s s' : Engine} {i : Nat} {o : Outcome}
    (hinv : Inv false s) (hs : settle s i o = some s')
    (hi : s.calls[i]? = some .fetching ∨ ∃ b, s.calls[i]? = some (.applying b))
    (ho : ∀ b, o = .served b → ∃ b', s.calls[i]? = some (.applying b')) :
    Inv false s' := by
  unfold settle at hs
  cases he : s.entry with
  | absent => rw [he] at hs; exact absurd hs (by simp)
  | settled o' w => rw [he] at hs; exact absurd hs (by simp)
  | running w =>
    rw [he] at hs
    simp only [Option.some.injEq] at hs
    subst hs
    unfold Inv at hinv ⊢
    rw [he] at hinv
    obtain ⟨k, hf, hk, hothers⟩ := hinv
    have hik : i = k := by
      by_contra hne
      rcases hi with hi | ⟨b, hi⟩
      · rcases hothers i _ hne hi with h | h <;> exact absurd h (by simp)
      · rcases hothers i _ hne hi with h | h <;> exact absurd h (by simp)
    subst hik
    refine ⟨?_, hf, ?_, ?_⟩
    · intro c hc
      rcases List.mem_iff_getElem?.mp hc with ⟨j, hj⟩
      dsimp only at hj
      rw [List.getElem?_set] at hj
      by_cases hij : i = j
      · rw [if_pos hij] at hj
        split at hj
        · exact Or.inr (Or.inr (Option.some.inj hj).symm)
        · exact absurd hj (by simp)
      · rw [if_neg hij] at hj
        rcases hothers j c (fun h => hij h.symm) hj with h | h
        · exact Or.inl h
        · exact Or.inr (Or.inl h)
    · rcases hk with ⟨-, h0⟩ | ⟨-, h1⟩
      · dsimp only; omega
      · dsimp only; omega
    · intro b hb
      obtain ⟨b', hb'⟩ := ho b hb
      rcases hk with ⟨hfetch, -⟩ | ⟨-, h1⟩
      · rw [hfetch] at hb'
        exact absurd hb' (by simp)
      · exact h1

theorem inv_removed {s : Engine} (h : Inv true s) :
    s.entry = .absent ∧ ∃ o, Settled o s := by
  unfold Inv at h
  cases he : s.entry with
  | absent => rw [he] at h; exact ⟨rfl, h⟩
  | running w => rw [he] at h; exact absurd h id
  | settled o w => rw [he] at h; exact absurd h id

theorem settle_absent {s : Engine} (he : s.entry = .absent) (i : Nat) (o : Outcome) :
    settle s i o = none := by
  unfold settle
  rw [he]

/-- Once the entry has been removed, nothing but a new `Begin` can happen. -/
theorem step_removed {s : Engine} {e : Event} (hinv : Inv true s)
    (hb : e.isEnter = false) : step true s e = none := by
  obtain ⟨he, o, hcalls, -⟩ := inv_removed hinv
  have hnofetch : ∀ i : Nat, s.calls[i]? ≠ some Call.fetching := by
    intro i hi
    rcases hcalls _ (List.getElem?_mem hi) with h | h | h <;> exact absurd h (by simp)
  have hnoapply : ∀ (i : Nat) (b : Blob), s.calls[i]? ≠ some (Call.applying b) := by
    intro i b hi
    rcases hcalls _ (List.getElem?_mem hi) with h | h | h <;> exact absurd h (by simp)
  cases e with
  | enter i => exact absurd hb (by simp [Event.isEnter])
  | fetched i r =>
    simp only [step]
    cases hc : s.calls[i]? with
    | none => rfl
    | some c => cases c <;> first | rfl | exact absurd hc (hnofetch i)
  | applied i r =>
    simp only [step]
    cases hc : s.calls[i]? with
    | none => rfl
    | some c => cases c <;> first | rfl | exact settle_absent he _ _
  | deadline i =>
    simp only [step]
    cases hc : s.calls[i]? with
    | none => rfl
    | some c => cases c <;> first | rfl | exact settle_absent he _ _
  | fault i f =>
    simp only [step]
    cases hc : s.calls[i]? with
    | none => rfl
    | some c => cases c <;> first | rfl | exact settle_absent he _ _
  | wake i =>
    simp only [step, he]
    cases hc : s.calls[i]? with
    | none => rfl
    | some c => cases c <;> rfl
  | remove =>
    simp only [step, he]


theorem begin_inv {s s' : Engine} {i : Nat} (hinv : Inv false s)
    (hi : s.calls[i]? = some .pending) (hstep : begin s i = s') :
    Inv false s' := by
  have hlt : i < s.calls.length := (List.getElem?_eq_some.mp hi).1
  unfold begin at hstep
  unfold Inv at hinv
  cases he : s.entry with
  | absent =>
    rw [he] at hstep hinv
    dsimp only at hstep
    subst hstep
    obtain ⟨hall, hf, ha⟩ := hinv
    refine ⟨i, ?_, Or.inl ⟨?_, ha⟩, ?_⟩
    · show s.fetches + 1 = 1
      omega
    · exact List.getElem?_set_self hlt
    · intro j c hji hj
      dsimp only at hj
      rw [List.getElem?_set_ne (fun h => hji h.symm)] at hj
      exact Or.inl (hall c (List.getElem?_mem hj))
  | running w =>
    rw [he] at hstep hinv
    dsimp only at hstep
    subst hstep
    obtain ⟨k, hf, hk, hothers⟩ := hinv
    have hik : i ≠ k := by
      intro h
      subst h
      rcases hk with ⟨h, -⟩ | ⟨⟨b, h⟩, -⟩ <;> rw [hi] at h <;> exact absurd h (by simp)
    refine ⟨k, hf, ?_, ?_⟩
    · dsimp only
      rw [List.getElem?_set_ne hik]
      exact hk
    · intro j c hjk hj
      dsimp only at hj
      rw [List.getElem?_set] at hj
      by_cases hij : i = j
      · rw [if_pos hij, if_pos hlt] at hj
        exact Or.inr (Option.some.inj hj).symm
      · rw [if_neg hij] at hj
        exact hothers j c hjk hj
  | settled o w =>
    rw [he] at hstep hinv
    dsimp only at hstep
    subst hstep
    obtain ⟨hall, hrest⟩ := hinv
    refine ⟨?_, hrest⟩
    intro c hc
    rcases List.mem_or_eq_of_mem_set hc with h | h
    · exact hall c h
    · exact Or.inr (Or.inr h)

theorem step_inv {s s' : Engine} {e : Event} (hinv : Inv false s)
    (hstep : step true s e = some s') : Inv e.isRemove s' := by
  cases e with
  | enter i =>
    simp only [step] at hstep
    cases hc : s.calls[i]? with
    | none => rw [hc] at hstep; exact absurd hstep (by simp)
    | some c =>
      rw [hc] at hstep
      cases c with
      | pending =>
        simp only [if_true, Option.some.injEq] at hstep
        exact begin_inv hinv hc hstep
      | fetching => exact absurd hstep (by simp)
      | applying b => exact absurd hstep (by simp)
      | waiting => exact absurd hstep (by simp)
      | returned o => exact absurd hstep (by simp)
  | fetched i r =>
    simp only [step] at hstep
    cases hc : s.calls[i]? with
    | none => rw [hc] at hstep; exact absurd hstep (by simp)
    | some c =>
      rw [hc] at hstep
      cases c with
      | pending => exact absurd hstep (by simp)
      | applying b => exact absurd hstep (by simp)
      | waiting => exact absurd hstep (by simp)
      | returned o => exact absurd hstep (by simp)
      | fetching =>
        cases r with
        | error f =>
          exact settle_inv hinv hstep (Or.inl hc) (fun b hb => absurd hb (by simp))
        | blob b =>
          simp only [Option.some.injEq] at hstep
          subst hstep
          have hlt : i < s.calls.length := (List.getElem?_eq_some.mp hc).1
          unfold Inv at hinv
          cases he : s.entry with
          | absent =>
            rw [he] at hinv
            exact absurd (hinv.1 _ (List.getElem?_mem hc)) (by simp)
          | settled o w =>
            rw [he] at hinv
            rcases hinv.1 _ (List.getElem?_mem hc) with h | h | h <;>
              exact absurd h (by simp)
          | running w =>
            rw [he] at hinv
            obtain ⟨k, hf, hk, hothers⟩ := hinv
            have hik : i = k := by
              by_contra hne
              rcases hothers i _ hne hc with h | h <;> exact absurd h (by simp)
            subst hik
            have h0 : s.applies = 0 := by
              rcases hk with ⟨-, h0⟩ | ⟨⟨b', hb'⟩, -⟩
              · exact h0
              · rw [hc] at hb'
                exact absurd hb' (by simp)
            show Inv false _
            unfold Inv
            simp only [he]
            refine ⟨i, hf, Or.inr ⟨⟨b, List.getElem?_set_self hlt⟩, ?_⟩, ?_⟩
            · show s.applies + 1 = 1
              omega
            · intro j c hji hj
              dsimp only at hj
              rw [List.getElem?_set_ne (fun h => hji h.symm)] at hj
              exact hothers j c hji hj
  | applied i r =>
    simp only [step] at hstep
    cases hc : s.calls[i]? with
    | none => rw [hc] at hstep; exact absurd hstep (by simp)
    | some c =>
      rw [hc] at hstep
      cases c with
      | pending => exact absurd hstep (by simp)
      | fetching => exact absurd hstep (by simp)
      | waiting => exact absurd hstep (by simp)
      | returned o => exact absurd hstep (by simp)
      | applying b => exact settle_inv hinv hstep (Or.inr ⟨b, hc⟩) (fun _ _ => ⟨b, hc⟩)
  | deadline i =>
    simp only [step] at hstep
    cases hc : s.calls[i]? with
    | none => rw [hc] at hstep; exact absurd hstep (by simp)
    | some c =>
      rw [hc] at hstep
      cases c with
      | pending => exact absurd hstep (by simp)
      | waiting => exact absurd hstep (by simp)
      | returned o => exact absurd hstep (by simp)
      | fetching =>
        exact settle_inv hinv hstep (Or.inl hc) (fun b hb => absurd hb (by simp))
      | applying b =>
        exact settle_inv hinv hstep (Or.inr ⟨b, hc⟩) (fun b hb => absurd hb (by simp))
  | fault i f =>
    simp only [step] at hstep
    cases hc : s.calls[i]? with
    | none => rw [hc] at hstep; exact absurd hstep (by simp)
    | some c =>
      rw [hc] at hstep
      cases c with
      | pending => exact absurd hstep (by simp)
      | waiting => exact absurd hstep (by simp)
      | returned o => exact absurd hstep (by simp)
      | fetching =>
        exact settle_inv hinv hstep (Or.inl hc) (fun b hb => absurd hb (by simp))
      | applying b =>
        exact settle_inv hinv hstep (Or.inr ⟨b, hc⟩) (fun b hb => absurd hb (by simp))
  | wake i =>
    simp only [step] at hstep
    cases hc : s.calls[i]? with
    | none => rw [hc] at hstep; exact absurd hstep (by simp)
    | some c =>
      rw [hc] at hstep
      cases c with
      | pending => exact absurd hstep (by simp)
      | fetching => exact absurd hstep (by simp)
      | applying b => exact absurd hstep (by simp)
      | returned o => exact absurd hstep (by simp)
      | waiting =>
        cases he : s.entry with
        | absent => rw [he] at hstep; exact absurd hstep (by simp)
        | running w => rw [he] at hstep; exact absurd hstep (by simp)
        | settled o w =>
          rw [he] at hstep
          simp only [Option.some.injEq] at hstep
          subst hstep
          unfold Inv at hinv
          rw [he] at hinv
          obtain ⟨hall, hrest⟩ := hinv
          refine ⟨?_, hrest⟩
          intro c hc'
          rcases List.mem_or_eq_of_mem_set hc' with h | h
          · exact hall c h
          · exact Or.inr (Or.inr h)
  | remove =>
    simp only [step] at hstep
    cases he : s.entry with
    | absent => rw [he] at hstep; exact absurd hstep (by simp)
    | running w => rw [he] at hstep; exact absurd hstep (by simp)
    | settled o w =>
      rw [he] at hstep
      cases w with
      | succ w' => exact absurd hstep (by simp)
      | zero =>
        simp only [Option.some.injEq] at hstep
        subst hstep
        unfold Inv at hinv
        rw [he] at hinv
        exact ⟨o, hinv⟩

theorem step_rejected {s s' : Engine} {e : Event} (hinv : Rejected s)
    (hstep : step false s e = some s') : Rejected s' := by
  obtain ⟨he, hf, ha, hall⟩ := hinv
  have hno : ∀ (i : Nat) (c : Call), s.calls[i]? = some c →
      c = .pending ∨ c = .returned (.failed .clientFault) :=
    fun i c hc => hall c (List.getElem?_mem hc)
  cases e with
  | enter i =>
    simp only [step] at hstep
    cases hc : s.calls[i]? with
    | none => rw [hc] at hstep; exact absurd hstep (by simp)
    | some c =>
      rw [hc] at hstep
      cases c with
      | pending =>
        simp only [Bool.false_eq_true, if_false, Option.some.injEq] at hstep
        subst hstep
        refine ⟨he, hf, ha, ?_⟩
        intro c hc'
        rcases List.mem_or_eq_of_mem_set hc' with h | h
        · exact hall c h
        · exact Or.inr h
      | fetching => exact absurd hstep (by simp)
      | applying b => exact absurd hstep (by simp)
      | waiting => exact absurd hstep (by simp)
      | returned o => exact absurd hstep (by simp)
  | fetched i r =>
    simp only [step] at hstep
    cases hc : s.calls[i]? with
    | none => rw [hc] at hstep; exact absurd hstep (by simp)
    | some c =>
      rcases hno i c hc with h | h <;> subst h <;> rw [hc] at hstep <;>
        exact absurd hstep (by simp)
  | applied i r =>
    simp only [step] at hstep
    cases hc : s.calls[i]? with
    | none => rw [hc] at hstep; exact absurd hstep (by simp)
    | some c =>
      rcases hno i c hc with h | h <;> subst h <;> rw [hc] at hstep <;>
        exact absurd hstep (by simp)
  | deadline i =>
    simp only [step] at hstep
    cases hc : s.calls[i]? with
    | none => rw [hc] at hstep; exact absurd hstep (by simp)
    | some c =>
      rcases hno i c hc with h | h <;> subst h <;> rw [hc] at hstep <;>
        exact absurd hstep (by simp)
  | fault i f =>
    simp only [step] at hstep
    cases hc : s.calls[i]? with
    | none => rw [hc] at hstep; exact absurd hstep (by simp)
    | some c =>
      rcases hno i c hc with h | h <;> subst h <;> rw [hc] at hstep <;>
        exact absurd hstep (by simp)
  | wake i =>
    simp only [step] at hstep
    cases hc : s.calls[i]? with
    | none => rw [hc] at hstep; exact absurd hstep (by simp)
    | some c =>
      rcases hno i c hc with h | h <;> subst h <;> rw [hc] at hstep <;>
        exact absurd hstep (by simp)
  | remove =>
    simp only [step, he] at hstep
    exact absurd hstep (by simp)

theorem exec_rejected {s s' : Engine} {sched : List Event} (hinv : Rejected s)
    (hrun : exec false s sched = some s') : Rejected s' := by
  induction sched generalizing s with
  | nil =>
    simp only [exec, Option.some.injEq] at hrun
    exact hrun ▸ hinv
  | cons e rest ih =>
    simp only [exec] at hrun
    cases hs : step false s e with
    | none => rw [hs] at hrun; exact absurd hrun (by simp)
    | some s1 =>
      rw [hs] at hrun
      exact ih (step_rejected hinv hs) hrun

theorem exec_inv {s s' : Engine} {sched : List Event} {removed : Bool}
    (hinv : Inv removed s) (hrun : exec true s sched = some s')
    (hconc : concurrentFrom removed sched = true) : ∃ r, Inv r s' := by
  induction sched generalizing s removed with
  | nil =>
    simp only [exec, Option.some.injEq] at hrun
    exact ⟨removed, hrun ▸ hinv⟩
  | cons e rest ih =>
    simp only [exec] at hrun
    cases hs : step true s e with
    | none => rw [hs] at hrun; exact absurd hrun (by simp)
    | some s1 =>
      rw [hs] at hrun
      cases removed with
      | true =>
        have hb : e.isEnter = false := by
          simp only [concurrentFrom, if_true, List.all_cons, Bool.and_eq_true,
            Bool.not_eq_true'] at hconc
          exact hconc.1
        rw [step_removed hinv hb] at hs
        exact absurd hs (by simp)
      | false =>
        refine ih (step_inv hinv hs) hrun ?_
        cases e <;>
          simpa [concurrentFrom, concurrent, Event.isRemove] using hconc

theorem settle_length {s s' : Engine} {i : Nat} {o : Outcome}
    (h : settle s i o = some s') : s'.calls.length = s.calls.length := by
  unfold settle at h
  cases he : s.entry with
  | absent => rw [he] at h; exact absurd h (by simp)
  | settled o' w => rw [he] at h; exact absurd h (by simp)
  | running w =>
    rw [he] at h
    simp only [Option.some.injEq] at h
    subst h
    exact List.length_set _ _ _

theorem begin_length (s : Engine) (i : Nat) :
    (begin s i).calls.length = s.calls.length := by
  unfold begin
  cases s.entry <;> exact List.length_set _ _ _

theorem step_length {accepted : Bool} {s s' : Engine} {e : Event}
    (h : step accepted s e = some s') : s'.calls.length = s.calls.length := by
  cases e with
  | enter i =>
    simp only [step] at h
    cases hc : s.calls[i]? with
    | none => rw [hc] at h; exact absurd h (by simp)
    | some c =>
      rw [hc] at h
      cases c with
      | fetching => exact absurd h (by simp)
      | applying b => exact absurd h (by simp)
      | waiting => exact absurd h (by simp)
      | returned o => exact absurd h (by simp)
      | pending =>
        cases accepted with
        | true =>
          simp only [if_true, Option.some.injEq] at h
          subst h
          exact begin_length s i
        | false =>
          simp only [Bool.false_eq_true, if_false, Option.some.injEq] at h
          subst h
          exact List.length_set _ _ _
  | fetched i r =>
    simp only [step] at h
    cases hc : s.calls[i]? with
    | none => rw [hc] at h; exact absurd h (by simp)
    | some c =>
      rw [hc] at h
      cases c with
      | pending => exact absurd h (by simp)
      | applying b => exact absurd h (by simp)
      | waiting => exact absurd h (by simp)
      | returned o => exact absurd h (by simp)
      | fetching =>
        cases r with
        | error f => exact settle_length h
        | blob b =>
          simp only [Option.some.injEq] at h
          subst h
          exact List.length_set _ _ _
  | applied i r =>
    simp only [step] at h
    cases hc : s.calls[i]? with
    | none => rw [hc] at h; exact absurd h (by simp)
    | some c =>
      rw [hc] at h
      cases c <;> first | exact settle_length h | exact absurd h (by simp)
  | deadline i =>
    simp only [step] at h
    cases hc : s.calls[i]? with
    | none => rw [hc] at h; exact absurd h (by simp)
    | some c =>
      rw [hc] at h
      cases c <;> first | exact settle_length h | exact absurd h (by simp)
  | fault i f =>
    simp only [step] at h
    cases hc : s.calls[i]? with
    | none => rw [hc] at h; exact absurd h (by simp)
    | some c =>
      rw [hc] at h
      cases c <;> first | exact settle_length h | exact absurd h (by simp)
  | wake i =>
    simp only [step] at h
    cases hc : s.calls[i]? with
    | none => rw [hc] at h; exact absurd h (by simp)
    | some c =>
      rw [hc] at h
      cases c with
      | pending => exact absurd h (by simp)
      | fetching => exact absurd h (by simp)
      | applying b => exact absurd h (by simp)
      | returned o => exact absurd h (by simp)
      | waiting =>
        cases he : s.entry <;> rw [he] at h <;>
          first
          | (simp only [Option.some.injEq] at h; subst h; exact List.length_set _ _ _)
          | exact absurd h (by simp)
  | remove =>
    simp only [step] at h
    cases he : s.entry with
    | absent => rw [he] at h; exact absurd h (by simp)
    | running w => rw [he] at h; exact absurd h (by simp)
    | settled o w =>
      rw [he] at h
      cases w with
      | succ w' => exact absurd h (by simp)
      | zero =>
        simp only [Option.some.injEq] at h
        subst h
        rfl

theorem exec_length {accepted : Bool} {s s' : Engine} {sched : List Event}
    (hrun : exec accepted s sched = some s') : s'.calls.length = s.calls.length := by
  induction sched generalizing s with
  | nil =>
    simp only [exec, Option.some.injEq] at hrun
    rw [hrun]
  | cons e rest ih =>
    simp only [exec] at hrun
    cases hs : step accepted s e with
    | none => rw [hs] at hrun; exact absurd hrun (by simp)
    | some s1 =>
      rw [hs] at hrun
      rw [ih hrun, step_length hs]

theorem init_inv (n : Nat) : Inv false (init n) := by
  refine ⟨?_, rfl, rfl⟩
  intro c hc
  exact (List.mem_replicate.mp hc).2

theorem init_rejected (n : Nat) : Rejected (init n) := by
  refine ⟨rfl, rfl, rfl, ?_⟩
  intro c hc
  exact Or.inl (List.mem_replicate.mp hc).2

/-- All calls of a settled engine that have returned carry the settled
outcome. -/
theorem settled_all_returned {o : Outcome} {s : Engine} {n : Nat}
    (hs : Settled o s) (hlen : s.calls.length = n) (hdone : allReturned s = true) :
    s.calls = List.replicate n (.returned o) := by
  rw [List.eq_replicate_iff]
  refine ⟨hlen, ?_⟩
  intro c hc
  have hret : c.isReturned = true := by
    unfold allReturned at hdone
    exact List.all_eq_true.mp hdone c hc
  rcases hs.1 c hc with h | h | h
  · rw [h] at hret; exact absurd hret (by simp [Call.isReturned])
  · rw [h] at hret; exact absurd hret (by simp [Call.isReturned])
  · exact h

/-- The coalescing guarantee without the count of Apply invocations by
cause: one outcome for all calls, at most one Fetch and one Apply. -/
theorem coalescing_core (accepted : Bool) (n : Nat) (sched : List Event)
    (s : Engine) (hn : 1 ≤ n) (hrun : exec accepted (init n) sched = some s)
    (hconc : concurrent sched = true) (hdone : allReturned s = true) :
    ∃ o, s.calls = List.replicate n (.returned o) ∧
      s.fetches ≤ 1 ∧ s.applies ≤ 1 ∧
      (accepted = true → s.fetches = 1) ∧
      (accepted = false → s.fetches = 0 ∧ o = .failed .clientFault) ∧
      (∀ b, o = .served b → s.fetches = 1 ∧ s.applies = 1) := by
  have hlen : s.calls.length = n := by
    rw [exec_length hrun]
    exact List.length_replicate _ _
  have hne : s.calls ≠ [] := by
    intro h
    rw [h] at hlen
    simp only [List.length_nil] at hlen
    omega
  obtain ⟨c0, hc0⟩ := List.exists_mem_of_ne_nil _ hne
  have hret0 : c0.isReturned = true := by
    unfold allReturned at hdone
    exact List.all_eq_true.mp hdone c0 hc0
  have fromSettled : accepted = true → ∀ o, Settled o s →
      ∃ o, s.calls = List.replicate n (.returned o) ∧
        s.fetches ≤ 1 ∧ s.applies ≤ 1 ∧
        (accepted = true → s.fetches = 1) ∧
        (accepted = false → s.fetches = 0 ∧ o = .failed .clientFault) ∧
        (∀ b, o = .served b → s.fetches = 1 ∧ s.applies = 1) := by
    intro hacc o hs
    refine ⟨o, settled_all_returned hs hlen hdone, ?_, hs.2.2.1, fun _ => hs.2.1,
      ?_, fun b hb => ⟨hs.2.1, hs.2.2.2 b hb⟩⟩
    · rw [hs.2.1]
    · intro h
      rw [hacc] at h
      exact absurd h (by simp)
  cases accepted with
  | false =>
    obtain ⟨-, hf, ha, hall⟩ := exec_rejected (init_rejected n) hrun
    refine ⟨.failed .clientFault, ?_, ?_, ?_, ?_, ?_, ?_⟩
    · rw [List.eq_replicate_iff]
      refine ⟨hlen, ?_⟩
      intro c hc
      have hret : c.isReturned = true := by
        unfold allReturned at hdone
        exact List.all_eq_true.mp hdone c hc
      rcases hall c hc with h | h
      · rw [h] at hret; exact absurd hret (by simp [Call.isReturned])
      · exact h
    · omega
    · omega
    · intro h; exact absurd h (by simp)
    · intro _; exact ⟨hf, rfl⟩
    · intro b hb; exact absurd hb (by simp)
  | true =>
    obtain ⟨r, hinv⟩ := exec_inv (init_inv n) hrun (by simpa [concurrentFrom] using hconc)
    cases r with
    | true =>
      obtain ⟨-, o, hs⟩ := inv_removed hinv
      exact fromSettled rfl o hs
    | false =>
      unfold Inv at hinv
      cases he : s.entry with
      | absent =>
        rw [he] at hinv
        have := hinv.1 c0 hc0
        rw [this] at hret0
        exact absurd hret0 (by simp [Call.isReturned])
      | running w =>
        rw [he] at hinv
        obtain ⟨k, -, hk, -⟩ := hinv
        exfalso
        have hall := List.all_eq_true.mp hdone
        rcases hk with ⟨h, -⟩ | ⟨⟨b, h⟩, -⟩
        · exact absurd (hall _ (List.getElem?_mem h)) (by simp [Call.isReturned])
        · exact absurd (hall _ (List.getElem?_mem h)) (by simp [Call.isReturned])
      | settled o w =>
        rw [he] at hinv
        exact fromSettled rfl o hinv

theorem settle_applies {s s' : Engine} {i : Nat} {o : Outcome}
    (h : settle s i o = some s') : s'.applies = s.applies := by
  unfold settle at h
  cases he : s.entry with
  | absent => rw [he] at h; exact absurd h (by simp)
  | settled o' w => rw [he] at h; exact absurd h (by simp)
  | running w =>
    rw [he] at h
    simp only [Option.some.injEq] at h
    subst h
    rfl

theorem begin_applies (s : Engine) (i : Nat) : (begin s i).applies = s.applies := by
  unfold begin
  cases s.entry <;> rfl

/-- Apply is invoked by the step in which a Fetch answers with a blob, and by
no other step. -/
theorem step_applies {accepted : Bool} {s s' : Engine} {e : Event}
    (h : step accepted s e = some s') :
    s'.applies = s.applies + if e.isBlobFetched = true then 1 else 0 := by
  cases e with
  | enter i =>
    simp only [step] at h
    cases hc : s.calls[i]? with
    | none => rw [hc] at h; exact absurd h (by simp)
    | some c =>
      rw [hc] at h
      cases c with
      | fetching => exact absurd h (by simp)
      | applying b => exact absurd h (by simp)
      | waiting => exact absurd h (by simp)
      | returned o => exact absurd h (by simp)
      | pending =>
        cases accepted with
        | true =>
          simp only [if_true, Option.some.injEq] at h
          subst h
          exact begin_applies s i
        | false =>
          simp only [Bool.false_eq_true, if_false, Option.some.injEq] at h
          subst h
          rfl
  | fetched i r =>
    simp only [step] at h
    cases hc : s.calls[i]? with
    | none => rw [hc] at h; exact absurd h (by simp)
    | some c =>
      rw [hc] at h
      cases c with
      | pending => exact absurd h (by simp)
      | applying b => exact absurd h (by simp)
      | waiting => exact absurd h (by simp)
      | returned o => exact absurd h (by simp)
      | fetching =>
        cases r with
        | error f => exact settle_applies h
        | blob b =>
          simp only [Option.some.injEq] at h
          subst h
          rfl
  | applied i r =>
    simp only [step] at h
    cases hc : s.calls[i]? with
    | none => rw [hc] at h; exact absurd h (by simp)
    | some c =>
      rw [hc] at h
      cases c <;> first | exact settle_applies h | exact absurd h (by simp)
  | deadline i =>
    simp only [step] at h
    cases hc : s.calls[i]? with
    | none => rw [hc] at h; exact absurd h (by simp)
    | some c =>
      rw [hc] at h
      cases c <;> first | exact settle_applies h | exact absurd h (by simp)
  | fault i f =>
    simp only [step] at h
    cases hc : s.calls[i]? with
    | none => rw [hc] at h; exact absurd h (by simp)
    | some c =>
      rw [hc] at h
      cases c <;> first | exact settle_applies h | exact absurd h (by simp)
  | wake i =>
    simp only [step] at h
    cases hc : s.calls[i]? with
    | none => rw [hc] at h; exact absurd h (by simp)
    | some c =>
      rw [hc] at h
      cases c with
      | pending => exact absurd h (by simp)
      | fetching => exact absurd h (by simp)
      | applying b => exact absurd h (by simp)
      | returned o => exact absurd h (by simp)
      | waiting =>
        cases he : s.entry <;> rw [he] at h <;>
          first
          | (simp only [Option.some.injEq] at h; subst h; rfl)
          | exact absurd h (by simp)
  | remove =>
    simp only [step] at h
    cases he : s.entry with
    | absent => rw [he] at h; exact absurd h (by simp)
    | running w => rw [he] at h; exact absurd h (by simp)
    | settled o w =>
      rw [he] at h
      cases w with
      | succ w' => exact absurd h (by simp)
      | zero =>
        simp only [Option.some.injEq] at h
        subst h
        rfl

/-- In every run the number of Apply invocations is the number of Fetches that
answered with a blob. -/
theorem exec_applies {accepted : Bool} {s s' : Engine} {sched : List Event}
    (hrun : exec accepted s sched = some s') :
    s'.applies = s.applies + sched.countP Event.isBlobFetched := by
  induction sched generalizing s with
  | nil =>
    simp only [exec, Option.some.injEq] at hrun
    rw [hrun]
    rfl
  | cons e rest ih =>
    simp only [exec] at hrun
    cases hs : step accepted s e with
    | none => rw [hs] at hrun; exact absurd hrun (by simp)
    | some s1 =>
      rw [hs] at hrun
      rw [ih hrun, step_applies hs, List.countP_cons]
      omega

/-- C9, as amended: for every `N ≥ 1` concurrent calls to `Process` with
identical paths, in every interleaving after which all `N` calls have
returned, all `N` calls have returned the same outcome (bit-identical output
or the identical error kind), and at most one `Loader.Fetch` and at most one
`Processor.Apply` invocation have occurred: exactly one Fetch when the path
passes parsing and verification and none when it is rejected, exactly one
Apply when that Fetch answered with a blob and none otherwise, hence exactly
one of each when the calls are served. -/
theorem coalescing_at_most_once (accepted : Bool) (n : Nat) (sched : List Event)
    (s : Engine) (hn : 1 ≤ n) (hrun : exec accepted (init n) sched = some s)
    (hconc : concurrent sched = true) (hdone : allReturned s = true) :
    ∃ o, s.calls = List.replicate n (.returned o) ∧
      s.fetches ≤ 1 ∧ s.applies ≤ 1 ∧
      (accepted = true → s.fetches = 1) ∧
      (accepted = false → s.fetches = 0 ∧ o = .failed .clientFault) ∧
      (s.applies = 1 ↔ ∃ i b, Event.fetched i (.blob b) ∈ sched) ∧
      (∀ b, o = .served b → s.fetches = 1 ∧ s.applies = 1) := by
  obtain ⟨o, hcalls, hf, ha, hacc, hrej, hserved⟩ :=
    coalescing_core accepted n sched s hn hrun hconc hdone
  refine ⟨o, hcalls, hf, ha, hacc, hrej, ?_, hserved⟩
  have hcount : s.applies = sched.countP Event.isBlobFetched := by
    rw [exec_applies hrun]
    show 0 + _ = _
    omega
  constructor
  · intro h1
    have hpos : 0 < sched.countP Event.isBlobFetched := by omega
    obtain ⟨e, he, hp⟩ := List.countP_pos_iff.mp hpos
    cases e with
    | fetched i r =>
      cases r with
      | blob b => exact ⟨i, b, he⟩
      | error f => exact absurd hp (by simp [Event.isBlobFetched])
    | enter i => exact absurd hp (by simp [Event.isBlobFetched])
    | applied i r => exact absurd hp (by simp [Event.isBlobFetched])
    | deadline i => exact absurd hp (by simp [Event.isBlobFetched])
    | fault i f => exact absurd hp (by simp [Event.isBlobFetched])
    | wake i => exact absurd hp (by simp [Event.isBlobFetched])
    | remove => exact absurd hp (by simp [Event.isBlobFetched])
  · rintro ⟨i, b, he⟩
    have hpos : 0 < sched.countP Event.isBlobFetched :=
      List.countP_pos_iff.mpr ⟨_, he, rfl⟩
    omega

/-- Witness for `coalescing_at_most_once`: three calls interleaved with the
work of the leader, all served the same bytes after one Fetch and one
Apply. -/
theorem coalescing_at_most_once_witness :
    exec true (init 3) servedRun = some servedEnd ∧
    concurrent servedRun = true ∧ allReturned servedEnd = true ∧
    ∃ o, servedEnd.calls = List.replicate 3 (.returned o) ∧
      servedEnd.fetches ≤ 1 ∧ servedEnd.applies ≤ 1 ∧
      (true = true → servedEnd.fetches = 1) ∧
      (true = false → servedEnd.fetches = 0 ∧ o = .failed .clientFault) ∧
      (servedEnd.applies = 1 ↔ ∃ i b, Event.fetched i (.blob b) ∈ servedRun) ∧
      (∀ b, o = .served b → servedEnd.fetches = 1 ∧ servedEnd.applies = 1) :=
  ⟨rfl, rfl, rfl,
    coalescing_at_most_once true 3 servedRun servedEnd (by decide) rfl rfl rfl⟩

/-- C9 as stated fails: in `notFoundRun` two concurrent calls both return
`NotFound` after one Fetch and no Apply at all, and in `rejectedRun` two
concurrent calls with a rejected path both return `ClientFault` without any
Fetch; neither run has exactly one Fetch and exactly one Apply. -/
theorem coalescing_exactly_once_fails :
    (∃ s, exec true (init 2) notFoundRun = some s ∧ concurrent notFoundRun = true ∧
      s.calls = List.replicate 2 (.returned (.failed .notFound)) ∧
      s.fetches = 1 ∧ s.applies = 0 ∧ ¬ (s.fetches = 1 ∧ s.applies = 1)) ∧
    (∃ s, exec false (init 2) rejectedRun = some s ∧ concurrent rejectedRun = true ∧
      s.calls = List.replicate 2 (.returned (.failed .clientFault)) ∧
      s.fetches = 0 ∧ s.applies = 0 ∧ ¬ (s.fetches = 1 ∧ s.applies = 1)) :=
  ⟨⟨⟨List.replicate 2 (.returned (.failed .notFound)), .settled (.failed .notFound) 0, 1, 0⟩,
      rfl, rfl, rfl, rfl, rfl, by decide⟩,
    ⟨⟨List.replicate 2 (.returned (.failed .clientFault)), .absent, 0, 0⟩,
      rfl, rfl, rfl, rfl, rfl, by decide⟩⟩

/-- A call made after the entry has been removed finds no entry and does the
work again: the two calls of `lateRun` are not concurrent, and the Fetch and
the Apply are invoked twice. -/
theorem late_call_works_again :
    concurrent lateRun = false ∧
    exec true (init 2) lateRun =
      some ⟨List.replicate 2 (.returned (.served ⟨[9], "image/webp"⟩)),
        .settled (.served ⟨[9], "image/webp"⟩) 0, 2, 2⟩ :=
  ⟨rfl, rfl⟩

theorem exec_append (accepted : Bool) (s : Engine) (l1 l2 : List Event) :
    exec accepted s (l1 ++ l2) =
      match exec accepted s l1 with
      | some s' => exec accepted s' l2
      | none => none := by
  induction l1 generalizing s with
  | nil => rfl
  | cons e rest ih =>
    simp only [List.cons_append, exec]
    cases step accepted s e with
    | none => rfl
    | some s1 => exact ih s1

theorem exec_followers (m : Nat) (pre : List Call) (w f a : Nat) :
    exec true ⟨pre ++ List.replicate m .pending, .running w, f, a⟩
        ((List.range' pre.length m).map .enter) =
      some ⟨pre ++ List.replicate m .waiting, .running (w + m), f, a⟩ := by
  induction m generalizing pre w with
  | zero => rfl
  | succ m ih =>
    have hget : (pre ++ List.replicate (m + 1) Call.pending)[pre.length]? = some Call.pending := by
      rw [List.getElem?_append_right (Nat.le_refl _), Nat.sub_self, List.replicate_succ,
        List.getElem?_cons_zero]
    have hset : (pre ++ List.replicate (m + 1) Call.pending).set pre.length Call.waiting =
        (pre ++ [Call.waiting]) ++ List.replicate m Call.pending := by
      simp [List.replicate_succ]
    rw [List.range'_succ, List.map_cons, exec]
    simp only [step, hget, begin, if_true, hset]
    have := ih (pre ++ [Call.waiting]) (w + 1)
    simp only [List.length_append, List.length_singleton] at this
    rw [this]
    simp [List.replicate_succ, Nat.add_assoc, Nat.add_comm 1 m]

theorem exec_wakes (m : Nat) (pre : List Call) (o : Outcome) (w f a : Nat) :
    exec true ⟨pre ++ List.replicate m .waiting, .settled o (w + m), f, a⟩
        ((List.range' pre.length m).map .wake) =
      some ⟨pre ++ List.replicate m (.returned o), .settled o w, f, a⟩ := by
  induction m generalizing pre with
  | zero => rfl
  | succ m ih =>
    have hget : (pre ++ List.replicate (m + 1) Call.waiting)[pre.length]? = some Call.waiting := by
      rw [List.getElem?_append_right (Nat.le_refl _), Nat.sub_self, List.replicate_succ,
        List.getElem?_cons_zero]
    have hset : (pre ++ List.replicate (m + 1) Call.waiting).set pre.length (Call.returned o) =
        (pre ++ [Call.returned o]) ++ List.replicate m Call.waiting := by
      simp [List.replicate_succ]
    rw [List.range'_succ, List.map_cons, exec]
    simp only [step, hget, hset]
    have := ih (pre ++ [Call.returned o])
    simp only [List.length_append, List.length_singleton] at this
    rw [show w + (m + 1) - 1 = w + m by omega, this]
    simp [List.replicate_succ]

/-- For every number of calls there is a concurrent run in which all of them
return: the run `fullRun` ends with every call returned with the outcome of
the one Apply, after one Fetch and one Apply. -/
theorem fullRun_exec (m : Nat) (source : Blob) (r : Reply) :
    exec true (init (m + 1)) (fullRun m source r) =
      some ⟨List.replicate (m + 1) (.returned r.outcome), .settled r.outcome 0, 1, 1⟩ := by
  unfold fullRun
  rw [List.cons_append]
  have h0 : step true (init (m + 1)) (.enter 0) =
      some ⟨[Call.fetching] ++ List.replicate m .pending, .running 0, 1, 0⟩ := by
    simp [step, init, begin, List.replicate_succ]
  simp only [exec, h0]
  rw [exec_append]
  have h1 := exec_followers m [Call.fetching] 0 1 0
  simp only [List.length_singleton] at h1
  rw [h1]
  simp only [exec, step, settle, List.singleton_append, List.getElem?_cons_zero, List.set_cons_zero]
  have h2 := exec_wakes m [Call.returned r.outcome] r.outcome 0 1 1
  simp only [List.length_singleton, List.singleton_append, Nat.zero_add] at h2
  simp only [Nat.zero_add]
  rw [h2]
  simp [List.replicate_succ]

theorem fullRun_concurrent (m : Nat) (source : Blob) (r : Reply) :
    concurrent (fullRun m source r) = true := by
  have hnoremove : ∀ l : List Event, (∀ e ∈ l, e.isRemove = false) → concurrent l = true := by
    intro l
    induction l with
    | nil => intro _; rfl
    | cons e rest ih =>
      intro h
      have he := h e (List.mem_cons_self _ _)
      have hrest := ih (fun x hx => h x (List.mem_cons_of_mem _ hx))
      cases e <;> first | exact hrest | exact absurd he (by simp [Event.isRemove])
  apply hnoremove
  intro e he
  unfold fullRun at he
  simp only [List.cons_append, List.mem_cons, List.mem_append, List.mem_map] at he
  rcases he with h | ⟨_, _, h⟩ | h | h | ⟨_, _, h⟩ <;> subst h <;> rfl

/-- For every `N ≥ 1` there is a concurrent run of `N` calls after which all of
them have returned. -/
theorem complete_run_exists (n : Nat) (hn : 1 ≤ n) :
    ∃ sched s, exec true (init n) sched = some s ∧ concurrent sched = true ∧
      allReturned s = true := by
  obtain ⟨m, rfl⟩ : ∃ m, n = m + 1 := ⟨n - 1, by omega⟩
  refine ⟨fullRun m ⟨[], ""⟩ (.blob ⟨[], ""⟩), _, fullRun_exec m _ _,
    fullRun_concurrent m _ _, ?_⟩
  simp [allReturned, Call.isReturned]

end Coalescer

end Imagor
